import Mathlib

/-!
# netdb.js: the table-sorter key functions `port.format` and `customIP.format`

Shallow embedding of the two parsers registered in `initTableSorter`
(`src/extra/depends/netdb.js`, lines 374-425) together with the JavaScript
primitives they call: `String.prototype.toLowerCase`, `String.prototype.replace`
with a case-insensitive literal pattern, `String.prototype.split`, `parseFloat`,
and the Number operations `*`, `+`, `<`.

Modelling decisions.

* A JavaScript Number is an IEEE-754 binary64 value.  `JSNum` has `NaN`, the two
  infinities and the finite values, a finite value being carried as the exact
  rational it denotes.  Every operation rounds its exact result to the nearest
  binary64 value, ties to even (`roundDouble`).  The sign of zero is not
  represented: `+0` and `-0` are indistinguishable by the operations used here.
* `parseFloat` reads the longest prefix that is a decimal literal and returns the
  binary64 value nearest to its exact value.  An array element that does not
  exist is `undefined`: it is falsy, and `parseFloat` reads it as the text
  `undefined`, which gives `NaN`.
* Strings are lists of characters.  `toLowerCase` and the case folding of the
  `i` flag are the ASCII ones; characters outside ASCII are left unchanged.
-/

/-! ## Numbers -/

/-- A JavaScript Number: `NaN`, `-Infinity`, a finite value, `+Infinity`. -/
inductive JSNum where
  | nan
  | negInf
  | fin (q : ℚ)
  | posInf
deriving DecidableEq

namespace JSNum

/-- The power `2^k` for an integer exponent. -/
def pow2 (k : ℤ) : ℚ := (2 : ℚ) ^ k

/-- For `q ≠ 0`, the exponent `e` with `2^e ≤ |q| < 2^(e+1)`. -/
def floorLog2 (q : ℚ) : ℤ :=
  let k : ℤ := (Nat.log2 q.num.natAbs : ℤ) - (Nat.log2 q.den : ℤ)
  if pow2 k ≤ |q| then k else k - 1

/-- Rounding of a non-negative rational to the nearest integer, ties to even. -/
def roundHalfEven (x : ℚ) : ℤ :=
  let f : ℤ := ⌊x⌋
  let d := x - f
  if d < 1 / 2 then f else if 1 / 2 < d then f + 1 else if f % 2 = 0 then f else f + 1

/-- Rounding of an exact value to binary64, round-to-nearest, ties-to-even:
53 significant bits, least normal exponent `-1022` (below it the spacing stays
`2^-1074`), overflow to an infinity from `2^1024` on. -/
def roundDouble (q : ℚ) : JSNum :=
  if q = 0 then fin 0 else
  let e := max (floorLog2 q) (-1022)
  let ulp := pow2 (e - 52)
  let r := (roundHalfEven (|q| / ulp) : ℚ) * ulp
  if pow2 1024 ≤ r then (if 0 < q then posInf else negInf)
  else fin (if 0 < q then r else -r)

/-- The Number operation `*`. -/
def mul : JSNum → JSNum → JSNum
  | nan, _ => nan
  | _, nan => nan
  | fin x, fin y => roundDouble (x * y)
  | fin x, posInf => if x = 0 then nan else if 0 < x then posInf else negInf
  | fin x, negInf => if x = 0 then nan else if 0 < x then negInf else posInf
  | posInf, fin y => if y = 0 then nan else if 0 < y then posInf else negInf
  | negInf, fin y => if y = 0 then nan else if 0 < y then negInf else posInf
  | posInf, posInf => posInf
  | negInf, negInf => posInf
  | posInf, negInf => negInf
  | negInf, posInf => negInf

/-- The Number operation `+`. -/
def add : JSNum → JSNum → JSNum
  | nan, _ => nan
  | _, nan => nan
  | fin x, fin y => roundDouble (x + y)
  | fin _, posInf => posInf
  | fin _, negInf => negInf
  | posInf, fin _ => posInf
  | negInf, fin _ => negInf
  | posInf, posInf => posInf
  | negInf, negInf => negInf
  | posInf, negInf => nan
  | negInf, posInf => nan

/-- The relational operator `<` on Numbers; any comparison with `NaN` is false. -/
def lt : JSNum → JSNum → Bool
  | nan, _ => false
  | _, nan => false
  | fin x, fin y => decide (x < y)
  | fin _, posInf => true
  | fin _, negInf => false
  | posInf, _ => false
  | negInf, fin _ => true
  | negInf, posInf => true
  | negInf, negInf => false

/-- The Number value of a natural number: the binary64 value nearest to it.  It
is the value of a decimal integer literal of the source text. -/
def ofNat (n : ℕ) : JSNum := roundDouble n

/-- The unary operator `-` on Numbers. -/
def neg : JSNum → JSNum
  | nan => nan
  | negInf => posInf
  | fin x => fin (-x)
  | posInf => negInf

/-- A Number that is `NaN`. -/
def isNaN : JSNum → Bool
  | nan => true
  | _ => false

/-- A Number that is finite (neither `NaN` nor an infinity). -/
def isFinite : JSNum → Bool
  | fin _ => true
  | _ => false

/-- A Number that is not `NaN` and not below zero. -/
def isNonNeg : JSNum → Bool
  | fin x => decide (0 ≤ x)
  | posInf => true
  | _ => false

end JSNum

/-! ## Strings -/

namespace JS

/-- A decimal digit `0`..`9`. -/
def isDecimalDigit (c : Char) : Bool := decide (48 ≤ c.toNat ∧ c.toNat ≤ 57)

/-- The characters `parseFloat` skips at the start of its argument
(`WhiteSpace` and `LineTerminator` of ECMAScript). -/
def isWhiteSpace (c : Char) : Bool :=
  decide (c.toNat ∈ [0x09, 0x0A, 0x0B, 0x0C, 0x0D, 0x20, 0xA0, 0x1680,
    0x2000, 0x2001, 0x2002, 0x2003, 0x2004, 0x2005, 0x2006, 0x2007, 0x2008, 0x2009, 0x200A,
    0x2028, 0x2029, 0x202F, 0x205F, 0x3000, 0xFEFF])

/-- The method `toLowerCase` (ASCII letters). -/
def toLowerCase (s : List Char) : List Char := s.map Char.toLower

/-- The pattern `pat` matches, ignoring letter case, at the start of `s`; the
result is what follows the match.  Two characters agree when their upper-case
forms agree; for the ASCII patterns of this file a character outside ASCII never
agrees with a pattern character, as in ECMAScript. -/
def matchI : List Char → List Char → Option (List Char)
  | [], s => some s
  | _ :: _, [] => none
  | p :: ps, c :: cs => if p.toUpper = c.toUpper then matchI ps cs else none

/-- The method `replace(/pat/i, rep)` for a literal pattern: the leftmost match
is replaced, the rest of the string is kept; without a match the string is
returned unchanged. -/
def replaceI (pat rep : List Char) : List Char → List Char
  | [] => match matchI pat [] with
    | some rest => rep ++ rest
    | none => []
  | c :: cs => match matchI pat (c :: cs) with
    | some rest => rep ++ rest
    | none => c :: replaceI pat rep cs

/-- The method `split(sep)` for a one-character separator. -/
def split (sep : Char) : List Char → List (List Char)
  | [] => [[]]
  | c :: cs =>
    if c = sep then [] :: split sep cs
    else match split sep cs with
      | [] => [[c]]
      | h :: t => (c :: h) :: t

/-- Decimal value of a run of digits. -/
def digitsValue (ds : List Char) : ℕ :=
  ds.foldl (fun acc c => 10 * acc + (c.toNat - 48)) 0

/-- The value of an optional exponent part `e`/`E`, optional sign, digits at the
start of the given text; `0` when there is none. -/
def exponentPart : List Char → ℤ
  | [] => 0
  | c :: r =>
    if c = 'e' ∨ c = 'E' then
      match r with
      | '+' :: r1 => (digitsValue (r1.takeWhile isDecimalDigit) : ℤ)
      | '-' :: r1 => - (digitsValue (r1.takeWhile isDecimalDigit) : ℤ)
      | _ => (digitsValue (r.takeWhile isDecimalDigit) : ℤ)
    else 0

/-- The global function `parseFloat` on a string: leading white space is
skipped, the longest prefix that is a `StrDecimalLiteral` is read and its value
rounded to a Number; `NaN` when there is no such prefix. -/
def parseFloat (s : List Char) : JSNum :=
  let t := s.dropWhile isWhiteSpace
  let neg : Bool := t.head? = some '-'
  let u := match t with
    | '+' :: r => r
    | '-' :: r => r
    | _ => t
  if "Infinity".data.isPrefixOf u then (if neg then JSNum.negInf else JSNum.posInf) else
  let ip := u.takeWhile isDecimalDigit
  let r1 := u.dropWhile isDecimalDigit
  let fp := match r1 with
    | '.' :: r => r.takeWhile isDecimalDigit
    | _ => []
  let r2 := match r1 with
    | '.' :: r => r.dropWhile isDecimalDigit
    | _ => r1
  if ip = [] ∧ fp = [] then JSNum.nan else
  let mv : ℚ := (digitsValue (ip ++ fp) : ℚ) * (10 : ℚ) ^ (exponentPart r2 - (fp.length : ℤ))
  JSNum.roundDouble (if neg then - mv else mv)

/-- The global function `parseFloat` applied to an array element: a missing
element is `undefined`, which `parseFloat` first converts to the string
`"undefined"`. -/
def parseFloatElem (x : Option (List Char)) : JSNum :=
  parseFloat (x.getD "undefined".data)

/-- Truthiness of an array element: `undefined` and the empty string are falsy. -/
def truthy (x : Option (List Char)) : Bool :=
  match x with
  | none => false
  | some s => !s.isEmpty

end JS

/-! ## The two parsers -/

/-- The string `s` after the two substitution statements of `port.format`
(lines 383-384). -/
def port.transform (s : List Char) : List Char :=
  let s1 := JS.replaceI "eth".data "10".data
    (JS.replaceI "fa".data "10".data (JS.replaceI "gi".data "10".data (JS.toLowerCase s)))
  JS.replaceI "v10".data "200000".data
    (JS.replaceI "po".data "100000".data (JS.replaceI "te".data "10".data (JS.toLowerCase s1)))

/-- The array `splitResult` of `port.format` (line 385). -/
def port.splitResult (s : String) : List (List Char) :=
  JS.split '/' (port.transform s.data)

/-- The local `num1` of `port.format` (line 386). -/
def port.num1 (s : String) : JSNum :=
  JS.parseFloatElem ((port.splitResult s).get? 0)

/-- The local `num2` of `port.format` (lines 388-391): the second segment when a
non-empty third segment exists, else `1`. -/
def port.num2 (s : String) : JSNum :=
  if JS.truthy ((port.splitResult s).get? 2) then JS.parseFloatElem ((port.splitResult s).get? 1)
  else JSNum.ofNat 1

/-- The local `num3` of `port.format` (lines 393-396): the third segment when it
exists and is not empty, else `1`. -/
def port.num3 (s : String) : JSNum :=
  if JS.truthy ((port.splitResult s).get? 2) then JS.parseFloatElem ((port.splitResult s).get? 2)
  else JSNum.ofNat 1

/-- The function `format` of the parser `port` (lines 381-399). -/
def port.format (s : String) : JSNum :=
  let myReturn := JSNum.add
    (JSNum.add (JSNum.mul (port.num1 s) (JSNum.ofNat 100000))
      (JSNum.mul (port.num2 s) (JSNum.ofNat 1000)))
    (port.num3 s)
  myReturn

/-- The function `format` of the parser `customIP` (lines 412-422). -/
def customIP.format (s : String) : JSNum :=
  let splitIP := JS.split '.' s.data
  let num1 := JS.parseFloatElem (splitIP.get? 0)
  let num2 := JS.parseFloatElem (splitIP.get? 1)
  let num3 := JS.parseFloatElem (splitIP.get? 2)
  let num4 := JS.parseFloatElem (splitIP.get? 3)
  let myReturn := JSNum.add
    (JSNum.add
      (JSNum.add (JSNum.mul num1 (JSNum.ofNat 1000000000)) (JSNum.mul num2 (JSNum.ofNat 100000)))
      (JSNum.mul num3 (JSNum.ofNat 1000)))
    num4
  myReturn

/-! ## Vocabulary of the statements -/

/-- A non-empty string of decimal digits. -/
def isNumeral (s : String) : Bool :=
  !s.data.isEmpty && s.data.all JS.isDecimalDigit

/-- The decimal value of a string of digits. -/
def decimalValue (s : String) : ℕ := JS.digitsValue s.data

/-- A numeral without leading zeros: `0` itself, or a numeral whose first digit
is not `0`. -/
def noLeadingZero (s : String) : Bool :=
  isNumeral s && (decide (s.data = ['0']) || decide (s.data.head? ≠ some '0'))

/-- A string made only of decimal digits and `/` characters (possibly empty). -/
def isDigitsAndSlashes (s : String) : Bool :=
  s.data.all (fun c => JS.isDecimalDigit c || decide (c = '/'))

/-- The weight literal that lines 383-384 put in the place of a media prefix,
the prefix being given in any letter case. -/
def mediaWeight (p : String) : Option String :=
  if JS.toLowerCase p.data = "gi".data then some "10"
  else if JS.toLowerCase p.data = "fa".data then some "10"
  else if JS.toLowerCase p.data = "eth".data then some "10"
  else if JS.toLowerCase p.data = "te".data then some "10"
  else if JS.toLowerCase p.data = "po".data then some "100000"
  else none

/-! ## Rounding: exactness on the safe integers -/

namespace JSNum

theorem pow2_pos (k : ℤ) : 0 < pow2 k := by
  unfold pow2; positivity

theorem pow2_le_pow2 {a b : ℤ} (h : a ≤ b) : pow2 a ≤ pow2 b := by
  unfold pow2; exact zpow_le_zpow_right₀ (by norm_num) h

theorem pow2_natCast (n : ℕ) : pow2 (n : ℤ) = ((2 ^ n : ℕ) : ℚ) := by
  unfold pow2; rw [zpow_natCast]; push_cast; rfl

/-- The exponent found by `floorLog2` is not above the value. -/
theorem pow2_floorLog2_le {q : ℚ} (hq : q ≠ 0) : pow2 (floorLog2 q) ≤ |q| := by
  unfold floorLog2
  simp only
  split
  · assumption
  · have hnum : q.num.natAbs ≠ 0 := by
      simpa using hq
    have h1 : 2 ^ Nat.log2 q.num.natAbs ≤ q.num.natAbs := Nat.log2_self_le hnum
    have h2 : q.den < 2 ^ (Nat.log2 q.den + 1) := Nat.lt_log2_self
    have habs : |q| = (q.num.natAbs : ℚ) / (q.den : ℚ) := by
      conv_lhs => rw [← Rat.num_div_den q]
      rw [abs_div, Nat.abs_cast, Nat.cast_natAbs, Int.cast_abs]
    rw [habs]
    have hk : pow2 ((Nat.log2 q.num.natAbs : ℤ) - (Nat.log2 q.den : ℤ) - 1)
        = ((2 ^ Nat.log2 q.num.natAbs : ℕ) : ℚ) / ((2 ^ (Nat.log2 q.den + 1) : ℕ) : ℚ) := by
      unfold pow2
      have : ((Nat.log2 q.num.natAbs : ℤ) - (Nat.log2 q.den : ℤ) - 1)
          = (Nat.log2 q.num.natAbs : ℤ) - ((Nat.log2 q.den + 1 : ℕ) : ℤ) := by push_cast; ring
      rw [this, zpow_sub₀ (by norm_num), zpow_natCast, zpow_natCast]
      push_cast
      rfl
    rw [hk]
    have hden : (0 : ℚ) < q.den := by exact_mod_cast q.den_pos
    apply div_le_div₀
    · positivity
    · exact_mod_cast h1
    · exact hden
    · exact_mod_cast h2.le

/-- An integer is its own rounding to the nearest integer. -/
theorem roundHalfEven_natCast (m : ℕ) : roundHalfEven (m : ℚ) = (m : ℤ) := by
  unfold roundHalfEven
  have hf : (⌊(m : ℚ)⌋ : ℤ) = (m : ℤ) := by
    exact_mod_cast Int.floor_natCast (α := ℚ) m
  simp only [hf]
  norm_num

/-- Every natural number below `2^53` is a binary64 value: rounding keeps it. -/
theorem roundDouble_natCast {n : ℕ} (h : n < 2 ^ 53) : roundDouble (n : ℚ) = fin (n : ℚ) := by
  unfold roundDouble
  by_cases hn : (n : ℚ) = 0
  · simp [hn]
  rw [if_neg hn]
  have hpos : (0 : ℚ) < n := by
    rcases Nat.eq_zero_or_pos n with h0 | h0
    · exact absurd (by simp [h0]) hn
    · exact_mod_cast h0
  have habs : |(n : ℚ)| = n := abs_of_pos hpos
  have hlow := pow2_floorLog2_le hn
  rw [habs] at hlow
  have he52 : floorLog2 (n : ℚ) ≤ 52 := by
    by_contra hc
    push_neg at hc
    have h53 : pow2 53 ≤ pow2 (floorLog2 (n : ℚ)) := pow2_le_pow2 (by omega)
    have hlt : (n : ℚ) < pow2 53 := by
      have := pow2_natCast 53
      simp only [Nat.cast_ofNat] at this
      rw [this]
      exact_mod_cast h
    linarith
  simp only
  set e : ℤ := max (floorLog2 (n : ℚ)) (-1022) with he
  have hele : e ≤ 52 := max_le he52 (by norm_num)
  obtain ⟨j, hj⟩ : ∃ j : ℕ, (52 : ℤ) - e = j := ⟨(52 - e).toNat, by omega⟩
  have hulp : pow2 (e - 52) = 1 / ((2 ^ j : ℕ) : ℚ) := by
    have : e - 52 = -(j : ℤ) := by omega
    rw [this]
    unfold pow2
    rw [zpow_neg, zpow_natCast]
    push_cast
    simp
  have hjpos : (0 : ℚ) < ((2 ^ j : ℕ) : ℚ) := by positivity
  have hquot : |(n : ℚ)| / pow2 (e - 52) = ((n * 2 ^ j : ℕ) : ℚ) := by
    rw [habs, hulp]
    push_cast
    field_simp
  rw [hquot, roundHalfEven_natCast, hulp]
  have hr : (((n * 2 ^ j : ℕ) : ℤ) : ℚ) * (1 / ((2 ^ j : ℕ) : ℚ)) = (n : ℚ) := by
    push_cast
    field_simp
  rw [hr]
  have hbig : ¬ pow2 1024 ≤ (n : ℚ) := by
    push_neg
    have h1 : (n : ℚ) < pow2 53 := by
      have := pow2_natCast 53
      simp only [Nat.cast_ofNat] at this
      rw [this]
      exact_mod_cast h
    exact lt_of_lt_of_le h1 (pow2_le_pow2 (by norm_num))
  rw [if_neg hbig, if_pos hpos]

theorem ofNat_eq {n : ℕ} (h : n < 2 ^ 53) : ofNat n = fin (n : ℚ) := roundDouble_natCast h

end JSNum

/-! ## Characters and strings -/

namespace JS

theorem toNat_ofNat_small {n : ℕ} (h : n < 55296) : (Char.ofNat n).toNat = n := by
  have hv : n.isValidChar := Or.inl h
  simp [Char.ofNat, hv, Char.ofNatAux, Char.toNat, UInt32.toNat]

theorem toLower_toNat (c : Char) :
    c.toLower.toNat = if 65 ≤ c.toNat ∧ c.toNat ≤ 90 then c.toNat + 32 else c.toNat := by
  unfold Char.toLower
  simp only [ge_iff_le]
  split
  · rw [toNat_ofNat_small (by omega)]
  · rfl

theorem toUpper_toNat (c : Char) :
    c.toUpper.toNat = if 97 ≤ c.toNat ∧ c.toNat ≤ 122 then c.toNat - 32 else c.toNat := by
  unfold Char.toUpper
  simp only [ge_iff_le]
  split
  · rw [toNat_ofNat_small (by omega)]
  · rfl

theorem eq_of_toNat_eq {c d : Char} (h : c.toNat = d.toNat) : c = d := by
  rw [← Char.ofNat_toNat c, ← Char.ofNat_toNat d, h]

/-- A character below `A` is its own lower case. -/
theorem toLower_of_small {c : Char} (h : c.toNat < 65) : c.toLower = c := by
  apply eq_of_toNat_eq
  rw [toLower_toNat]
  split
  · omega
  · rfl

/-- A character below `A` differs, letter case ignored, from every letter. -/
theorem toUpper_ne_of_small {p c : Char} (hp : 65 ≤ p.toUpper.toNat) (h : c.toNat < 65) :
    p.toUpper ≠ c.toUpper := by
  intro he
  have h1 := congrArg Char.toNat he
  rw [toUpper_toNat c] at h1
  split at h1 <;> omega

theorem toLowerCase_of_small {s : List Char} (h : ∀ c ∈ s, c.toNat < 65) :
    toLowerCase s = s := by
  unfold toLowerCase
  induction s with
  | nil => rfl
  | cons c cs ih =>
    simp only [List.map_cons]
    rw [toLower_of_small (h c (List.mem_cons_self _ _)),
      ih (fun d hd => h d (List.mem_cons_of_mem _ hd))]

theorem toLowerCase_append (s t : List Char) :
    toLowerCase (s ++ t) = toLowerCase s ++ toLowerCase t := by
  simp [toLowerCase]

/-- A pattern that starts with a letter does not match at the start of a text
whose characters are all below `A`. -/
theorem matchI_of_small {p : Char} (ps : List Char) {s : List Char}
    (hp : 65 ≤ p.toUpper.toNat) (h : ∀ c ∈ s, c.toNat < 65) :
    matchI (p :: ps) s = none := by
  cases s with
  | nil => rfl
  | cons c cs =>
    simp only [matchI]
    rw [if_neg (toUpper_ne_of_small hp (h c (List.mem_cons_self _ _)))]

/-- A pattern that starts with a letter leaves unchanged a text whose characters
are all below `A`. -/
theorem replaceI_of_small {p : Char} (ps rep : List Char) {s : List Char}
    (hp : 65 ≤ p.toUpper.toNat) (h : ∀ c ∈ s, c.toNat < 65) :
    replaceI (p :: ps) rep s = s := by
  induction s with
  | nil => simp [replaceI, matchI]
  | cons c cs ih =>
    simp only [replaceI]
    rw [matchI_of_small ps hp h]
    simp only
    rw [ih (fun d hd => h d (List.mem_cons_of_mem _ hd))]

theorem split_of_not_mem {sep : Char} {s : List Char} (h : sep ∉ s) : split sep s = [s] := by
  induction s with
  | nil => rfl
  | cons c cs ih =>
    have hc : c ≠ sep := fun e => h (e ▸ List.mem_cons_self _ _)
    have hcs : sep ∉ cs := fun e => h (List.mem_cons_of_mem _ e)
    simp only [split, if_neg hc, ih hcs]

theorem split_append_sep {sep : Char} {s : List Char} (t : List Char) (h : sep ∉ s) :
    split sep (s ++ sep :: t) = s :: split sep t := by
  induction s with
  | nil => simp [split]
  | cons c cs ih =>
    have hc : c ≠ sep := fun e => h (e ▸ List.mem_cons_self _ _)
    have hcs : sep ∉ cs := fun e => h (List.mem_cons_of_mem _ e)
    have ih2 := ih hcs
    rw [List.cons_append]
    simp only [split, if_neg hc]
    rw [ih2]

theorem isDecimalDigit_iff {c : Char} : isDecimalDigit c = true ↔ 48 ≤ c.toNat ∧ c.toNat ≤ 57 := by
  simp [isDecimalDigit]

theorem not_isWhiteSpace_of_digit {c : Char} (h : isDecimalDigit c = true) :
    isWhiteSpace c = false := by
  rw [isDecimalDigit_iff] at h
  simp only [isWhiteSpace, decide_eq_false_iff_not, List.mem_cons, List.mem_singleton,
    List.mem_nil_iff, or_false, not_or]
  omega

theorem takeWhile_digits {s : List Char} (h : ∀ c ∈ s, isDecimalDigit c = true) :
    s.takeWhile isDecimalDigit = s := by
  rw [List.takeWhile_eq_self_iff]
  exact h

theorem dropWhile_digits {s : List Char} (h : ∀ c ∈ s, isDecimalDigit c = true) :
    s.dropWhile isDecimalDigit = [] := by
  rw [List.dropWhile_eq_nil_iff]
  exact h

/-- On a non-empty run of decimal digits `parseFloat` returns the Number nearest
to the decimal value of the run. -/
theorem parseFloat_digits {s : List Char} (hne : s ≠ [])
    (h : ∀ c ∈ s, isDecimalDigit c = true) :
    parseFloat s = JSNum.roundDouble (digitsValue s : ℚ) := by
  obtain ⟨c, cs, rfl⟩ := List.exists_cons_of_ne_nil hne
  have hc := h c (List.mem_cons_self _ _)
  have hcn := isDecimalDigit_iff.mp hc
  have hws := not_isWhiteSpace_of_digit hc
  have hminus : c ≠ '-' := by
    intro e; rw [e] at hcn; revert hcn; decide
  have hplus : c ≠ '+' := by
    intro e; rw [e] at hcn; revert hcn; decide
  have hI : c ≠ 'I' := by
    intro e; rw [e] at hcn; revert hcn; decide
  have ht : (c :: cs).dropWhile isWhiteSpace = c :: cs := by
    simp [List.dropWhile, hws]
  have hu : (match c :: cs with
      | '+' :: r => r
      | '-' :: r => r
      | _ => c :: cs) = c :: cs := by
    split
    · rename_i heq; exact absurd (List.cons.inj heq).1 hplus
    · rename_i heq; exact absurd (List.cons.inj heq).1 hminus
    · rfl
  unfold parseFloat
  simp only [ht, hu, takeWhile_digits h, dropWhile_digits h]
  have hinf : ("Infinity".data.isPrefixOf (c :: cs)) = false := by
    show (['I', 'n', 'f', 'i', 'n', 'i', 't', 'y'].isPrefixOf (c :: cs)) = false
    simp [List.isPrefixOf, Ne.symm hI]
  have hneg : (decide ((c :: cs).head? = some '-')) = false := by
    simp [hminus]
  simp [hinf, hneg, exponentPart, hminus]

end JS

/-! ## Exact arithmetic below `2^53` -/

namespace JSNum

theorem mul_fin_natCast {m n : ℕ} (h : m * n < 2 ^ 53) :
    mul (fin (m : ℚ)) (fin (n : ℚ)) = fin ((m * n : ℕ) : ℚ) := by
  show roundDouble ((m : ℚ) * (n : ℚ)) = _
  rw [← Nat.cast_mul]
  exact roundDouble_natCast h

theorem add_fin_natCast {m n : ℕ} (h : m + n < 2 ^ 53) :
    add (fin (m : ℚ)) (fin (n : ℚ)) = fin ((m + n : ℕ) : ℚ) := by
  show roundDouble ((m : ℚ) + (n : ℚ)) = _
  rw [← Nat.cast_add]
  exact roundDouble_natCast h

/-- The weighted sum of `port.format` is exact when it is below `2^53`. -/
theorem portKey_exact {n1 n2 n3 : ℕ} (h : n1 * 100000 + n2 * 1000 + n3 < 2 ^ 53) :
    add (add (mul (ofNat n1) (ofNat 100000)) (mul (ofNat n2) (ofNat 1000))) (ofNat n3)
      = fin ((n1 * 100000 + n2 * 1000 + n3 : ℕ) : ℚ) := by
  rw [ofNat_eq (n := n1) (by omega), ofNat_eq (n := n2) (by omega), ofNat_eq (n := n3) (by omega),
    ofNat_eq (n := 100000) (by norm_num), ofNat_eq (n := 1000) (by norm_num),
    mul_fin_natCast (by omega), mul_fin_natCast (by omega), add_fin_natCast (by omega),
    add_fin_natCast (by omega)]

/-- The weighted sum of `customIP.format` is exact when it is below `2^53`. -/
theorem ipKey_exact {n1 n2 n3 n4 : ℕ}
    (h : n1 * 1000000000 + n2 * 100000 + n3 * 1000 + n4 < 2 ^ 53) :
    add (add (add (mul (ofNat n1) (ofNat 1000000000)) (mul (ofNat n2) (ofNat 100000)))
        (mul (ofNat n3) (ofNat 1000))) (ofNat n4)
      = fin ((n1 * 1000000000 + n2 * 100000 + n3 * 1000 + n4 : ℕ) : ℚ) := by
  rw [ofNat_eq (n := n1) (by omega), ofNat_eq (n := n2) (by omega), ofNat_eq (n := n3) (by omega),
    ofNat_eq (n := n4) (by omega),
    ofNat_eq (n := 1000000000) (by norm_num), ofNat_eq (n := 100000) (by norm_num),
    ofNat_eq (n := 1000) (by norm_num),
    mul_fin_natCast (by omega), mul_fin_natCast (by omega), mul_fin_natCast (by omega),
    add_fin_natCast (by omega), add_fin_natCast (by omega), add_fin_natCast (by omega)]

theorem lt_fin_natCast {m n : ℕ} : lt (fin (m : ℚ)) (fin (n : ℚ)) = true ↔ m < n := by
  simp [lt]

end JSNum

/-! ## The parsers on split input -/

theorem isNumeral_iff (s : String) :
    isNumeral s = true ↔ s.data ≠ [] ∧ ∀ c ∈ s.data, JS.isDecimalDigit c = true := by
  simp [isNumeral, List.isEmpty_iff]

theorem parseFloat_numeral {s : String} (h : isNumeral s = true) :
    JS.parseFloat s.data = JSNum.ofNat (decimalValue s) := by
  rw [isNumeral_iff] at h
  exact JS.parseFloat_digits h.1 h.2

theorem digit_lt_65 {c : Char} (h : JS.isDecimalDigit c = true) : c.toNat < 65 := by
  rw [JS.isDecimalDigit_iff] at h; omega

theorem digit_ne_slash {c : Char} (h : JS.isDecimalDigit c = true) : c ≠ '/' := by
  intro e; rw [e] at h; revert h; decide

theorem digit_ne_dot {c : Char} (h : JS.isDecimalDigit c = true) : c ≠ '.' := by
  intro e; rw [e] at h; revert h; decide

theorem slash_not_mem_numeral {s : String} (h : isNumeral s = true) : '/' ∉ s.data := by
  rw [isNumeral_iff] at h
  intro hm
  exact digit_ne_slash (h.2 _ hm) rfl

theorem dot_not_mem_numeral {s : String} (h : isNumeral s = true) : '.' ∉ s.data := by
  rw [isNumeral_iff] at h
  intro hm
  exact digit_ne_dot (h.2 _ hm) rfl

/-- The key of `customIP.format` on four parts free of `.`. -/
theorem customIP_format_parts (a b c d : String) (ha : '.' ∉ a.data) (hb : '.' ∉ b.data)
    (hc : '.' ∉ c.data) (hd : '.' ∉ d.data) :
    customIP.format (a ++ "." ++ b ++ "." ++ c ++ "." ++ d)
      = JSNum.add (JSNum.add (JSNum.add
          (JSNum.mul (JS.parseFloat a.data) (JSNum.ofNat 1000000000))
          (JSNum.mul (JS.parseFloat b.data) (JSNum.ofNat 100000)))
          (JSNum.mul (JS.parseFloat c.data) (JSNum.ofNat 1000)))
          (JS.parseFloat d.data) := by
  have hdata : (a ++ "." ++ b ++ "." ++ c ++ "." ++ d).data
      = a.data ++ '.' :: (b.data ++ '.' :: (c.data ++ '.' :: d.data)) := by
    simp [String.data_append]
  unfold customIP.format
  simp only [hdata]
  rw [JS.split_append_sep _ ha, JS.split_append_sep _ hb, JS.split_append_sep _ hc,
    JS.split_of_not_mem hd]
  rfl

/-- The key of `port.format` when the transformed text has three segments, the
third one not empty. -/
theorem port_format_of_three_parts (s : String) (x y z : List Char)
    (ht : port.transform s.data = x ++ '/' :: (y ++ '/' :: z))
    (hx : '/' ∉ x) (hy : '/' ∉ y) (hz : '/' ∉ z) (hne : z ≠ []) :
    port.format s
      = JSNum.add (JSNum.add (JSNum.mul (JS.parseFloat x) (JSNum.ofNat 100000))
          (JSNum.mul (JS.parseFloat y) (JSNum.ofNat 1000))) (JS.parseFloat z) := by
  unfold port.format port.num1 port.num2 port.num3 port.splitResult
  simp only [ht]
  rw [JS.split_append_sep _ hx, JS.split_append_sep _ hy, JS.split_of_not_mem hz]
  obtain ⟨c, cs, rfl⟩ := List.exists_cons_of_ne_nil hne
  rfl

/-- The key of `port.format` when the transformed text has no `/`. -/
theorem port_format_of_one_part (s : String) (hx : '/' ∉ port.transform s.data) :
    port.format s
      = JSNum.add (JSNum.add
          (JSNum.mul (JS.parseFloat (port.transform s.data)) (JSNum.ofNat 100000))
          (JSNum.mul (JSNum.ofNat 1) (JSNum.ofNat 1000))) (JSNum.ofNat 1) := by
  unfold port.format port.num1 port.num2 port.num3 port.splitResult
  simp only []
  rw [JS.split_of_not_mem hx]
  rfl

theorem small_append {w r : List Char} (hw : ∀ c ∈ w, c.toNat < 65)
    (hr : ∀ c ∈ r, c.toNat < 65) : ∀ c ∈ w ++ r, c.toNat < 65 := by
  intro c hc
  rcases List.mem_append.mp hc with h | h
  · exact hw c h
  · exact hr c h

/-- A text whose characters are all below `A` goes through the substitutions of
lines 383-384 unchanged. -/
theorem port_transform_of_small {s : List Char} (h : ∀ c ∈ s, c.toNat < 65) :
    port.transform s = s := by
  unfold port.transform
  simp only []
  rw [JS.toLowerCase_of_small h,
    JS.replaceI_of_small _ _ (by decide) h, JS.replaceI_of_small _ _ (by decide) h,
    JS.replaceI_of_small _ _ (by decide) h, JS.toLowerCase_of_small h,
    JS.replaceI_of_small _ _ (by decide) h, JS.replaceI_of_small _ _ (by decide) h,
    JS.replaceI_of_small _ _ (by decide) h]

/-- The substitutions of lines 383-384 replace a media prefix by its weight
literal when what follows has only characters below `A` (digits, `/`). -/
theorem port_transform_media {p w : String} {r : List Char} (hw : mediaWeight p = some w)
    (hr : ∀ c ∈ r, c.toNat < 65) : port.transform (p.data ++ r) = w.data ++ r := by
  have e1 : "gi".data = ['g', 'i'] := rfl
  have e2 : "fa".data = ['f', 'a'] := rfl
  have e3 : "eth".data = ['e', 't', 'h'] := rfl
  have e4 : "te".data = ['t', 'e'] := rfl
  have e5 : "po".data = ['p', 'o'] := rfl
  have e7 : "10".data = ['1', '0'] := rfl
  have e8 : "100000".data = ['1', '0', '0', '0', '0', '0'] := rfl
  have h10 : ∀ c ∈ '1' :: '0' :: r, c.toNat < 65 := by
    intro c hc
    simp only [List.mem_cons] at hc
    rcases hc with rfl | rfl | hc
    · decide
    · decide
    · exact hr c hc
  have hrs : ∀ q : Char, 65 ≤ q.toUpper.toNat → ∀ qs rep, JS.replaceI (q :: qs) rep r = r :=
    fun q hq qs rep => JS.replaceI_of_small qs rep hq hr
  have hms : ∀ q : Char, 65 ≤ q.toUpper.toNat → ∀ qs, JS.matchI (q :: qs) r = none :=
    fun q hq qs => JS.matchI_of_small qs hq hr
  unfold mediaWeight at hw
  unfold port.transform
  simp only [JS.toLowerCase_append, JS.toLowerCase_of_small hr]
  split_ifs at hw with h1 h2 h3 h4 h5
  · cases hw
    rw [h1, e1, e7]
    have : JS.replaceI ['g', 'i'] ['1', '0'] (['g', 'i'] ++ r) = '1' :: '0' :: r := by
      simp [JS.replaceI, JS.matchI]
    rw [this, JS.replaceI_of_small _ _ (by decide) h10, JS.replaceI_of_small _ _ (by decide) h10,
      JS.toLowerCase_of_small h10,
      JS.replaceI_of_small _ _ (by decide) h10, JS.replaceI_of_small _ _ (by decide) h10,
      JS.replaceI_of_small _ _ (by decide) h10]
    rfl
  · cases hw
    rw [h2, e2, e7]
    have : JS.replaceI ['f', 'a'] ['1', '0'] (JS.replaceI ['g', 'i'] ['1', '0'] (['f', 'a'] ++ r))
        = '1' :: '0' :: r := by
      simp [JS.replaceI, JS.matchI, hrs 'g' (by decide)]
    rw [this, JS.replaceI_of_small _ _ (by decide) h10,
      JS.toLowerCase_of_small h10,
      JS.replaceI_of_small _ _ (by decide) h10, JS.replaceI_of_small _ _ (by decide) h10,
      JS.replaceI_of_small _ _ (by decide) h10]
    rfl
  · cases hw
    rw [h3, e3, e7]
    have : JS.replaceI ['e', 't', 'h'] ['1', '0'] (JS.replaceI ['f', 'a'] ['1', '0']
        (JS.replaceI ['g', 'i'] ['1', '0'] (['e', 't', 'h'] ++ r))) = '1' :: '0' :: r := by
      simp [JS.replaceI, JS.matchI, hrs 'g' (by decide), hrs 'f' (by decide)]
    rw [this, JS.toLowerCase_of_small h10,
      JS.replaceI_of_small _ _ (by decide) h10, JS.replaceI_of_small _ _ (by decide) h10,
      JS.replaceI_of_small _ _ (by decide) h10]
    rfl
  · cases hw
    rw [h4, e4, e7]
    have h0 : JS.replaceI ['e', 't', 'h'] ['1', '0'] (JS.replaceI ['f', 'a'] ['1', '0']
        (JS.replaceI ['g', 'i'] ['1', '0'] (['t', 'e'] ++ r))) = 't' :: 'e' :: r := by
      simp [JS.replaceI, JS.matchI, hrs 'g' (by decide), hrs 'f' (by decide),
        hrs 'e' (by decide), hms 't' (by decide)]
    have hl : JS.toLowerCase ('t' :: 'e' :: r) = 't' :: 'e' :: r := by
      have hmap := JS.toLowerCase_of_small hr
      unfold JS.toLowerCase at hmap ⊢
      simp [hmap]
    have : JS.replaceI ['t', 'e'] ['1', '0'] ('t' :: 'e' :: r) = '1' :: '0' :: r := by
      simp [JS.replaceI, JS.matchI]
    rw [h0, hl, this, JS.replaceI_of_small _ _ (by decide) h10,
      JS.replaceI_of_small _ _ (by decide) h10]
    rfl
  · cases hw
    rw [h5, e5, e8]
    have h0 : JS.replaceI ['e', 't', 'h'] ['1', '0'] (JS.replaceI ['f', 'a'] ['1', '0']
        (JS.replaceI ['g', 'i'] ['1', '0'] (['p', 'o'] ++ r))) = 'p' :: 'o' :: r := by
      simp [JS.replaceI, JS.matchI, hrs 'g' (by decide), hrs 'f' (by decide),
        hrs 'e' (by decide)]
    have hl : JS.toLowerCase ('p' :: 'o' :: r) = 'p' :: 'o' :: r := by
      have hmap := JS.toLowerCase_of_small hr
      unfold JS.toLowerCase at hmap ⊢
      simp [hmap]
    have h100 : ∀ c ∈ '1' :: '0' :: '0' :: '0' :: '0' :: '0' :: r, c.toNat < 65 := by
      intro c hc
      simp only [List.mem_cons] at hc
      rcases hc with rfl | rfl | rfl | rfl | rfl | rfl | hc
      all_goals first | decide | exact hr c hc
    have : JS.replaceI ['p', 'o'] ['1', '0', '0', '0', '0', '0']
        (JS.replaceI ['t', 'e'] ['1', '0'] ('p' :: 'o' :: r))
        = '1' :: '0' :: '0' :: '0' :: '0' :: '0' :: r := by
      simp [JS.replaceI, JS.matchI, hrs 't' (by decide)]
    rw [h0, hl, this, JS.replaceI_of_small _ _ (by decide) h100]
    rfl

/-! ## `customIP.format` on numerals -/

/-- On four numerals `customIP.format` returns the exact weighted sum as long as
that sum is below `2^53`. -/
theorem customIP_format_numerals {a b c d : String} (ha : isNumeral a = true)
    (hb : isNumeral b = true) (hc : isNumeral c = true) (hd : isNumeral d = true)
    (h : decimalValue a * 1000000000 + decimalValue b * 100000 + decimalValue c * 1000
      + decimalValue d < 2 ^ 53) :
    customIP.format (a ++ "." ++ b ++ "." ++ c ++ "." ++ d)
      = JSNum.fin ((decimalValue a * 1000000000 + decimalValue b * 100000
          + decimalValue c * 1000 + decimalValue d : ℕ) : ℚ) := by
  rw [customIP_format_parts a b c d (dot_not_mem_numeral ha) (dot_not_mem_numeral hb)
    (dot_not_mem_numeral hc) (dot_not_mem_numeral hd),
    parseFloat_numeral ha, parseFloat_numeral hb, parseFloat_numeral hc, parseFloat_numeral hd]
  exact JSNum.ipKey_exact h

/-- Numerals for octets give a key below `2^53`. -/
theorem octets_key_lt {a b c d : ℕ} (ha : a ≤ 255) (hb : b ≤ 255) (hc : c ≤ 255) (hd : d ≤ 255) :
    a * 1000000000 + b * 100000 + c * 1000 + d < 2 ^ 53 := by
  norm_num
  omega

/-- C1 (failing input).  The weight `100000` of the second octet is smaller than
what the third octet can contribute (`255 * 1000`): `10.0.101.0` comes before
`10.1.0.0` as a tuple of numbers, yet its key is the larger one, and
`10.0.100.0` has the same key as `10.1.0.0`. -/
theorem customIP_format_order_violated :
    customIP.format "10.0.101.0" = JSNum.fin 10000101000
    ∧ customIP.format "10.1.0.0" = JSNum.fin 10000100000
    ∧ customIP.format "10.0.100.0" = JSNum.fin 10000100000
    ∧ JSNum.lt (customIP.format "10.0.101.0") (customIP.format "10.1.0.0") = false
    ∧ JSNum.lt (customIP.format "10.1.0.0") (customIP.format "10.0.101.0") = true := by
  have h1 := customIP_format_numerals (a := "10") (b := "0") (c := "101") (d := "0")
    (by decide) (by decide) (by decide) (by decide) (by decide)
  have h2 := customIP_format_numerals (a := "10") (b := "1") (c := "0") (d := "0")
    (by decide) (by decide) (by decide) (by decide) (by decide)
  have h3 := customIP_format_numerals (a := "10") (b := "0") (c := "100") (d := "0")
    (by decide) (by decide) (by decide) (by decide) (by decide)
  have e0 : decimalValue "0" = 0 := by decide
  have e1 : decimalValue "1" = 1 := by decide
  have e10 : decimalValue "10" = 10 := by decide
  have e100 : decimalValue "100" = 100 := by decide
  have e101 : decimalValue "101" = 101 := by decide
  rw [e10, e0, e101] at h1
  rw [e10, e1, e0] at h2
  rw [e10, e0, e100] at h3
  have k1 : customIP.format "10.0.101.0" = JSNum.fin 10000101000 := by
    rw [show ("10.0.101.0" : String) = "10" ++ "." ++ "0" ++ "." ++ "101" ++ "." ++ "0" from by
      decide, h1]
    norm_num
  have k2 : customIP.format "10.1.0.0" = JSNum.fin 10000100000 := by
    rw [show ("10.1.0.0" : String) = "10" ++ "." ++ "1" ++ "." ++ "0" ++ "." ++ "0" from by
      decide, h2]
    norm_num
  have k3 : customIP.format "10.0.100.0" = JSNum.fin 10000100000 := by
    rw [show ("10.0.100.0" : String) = "10" ++ "." ++ "0" ++ "." ++ "100" ++ "." ++ "0" from by
      decide, h3]
    norm_num
  refine ⟨k1, k2, k3, ?_, ?_⟩
  · rw [k1, k2]; simp only [JSNum.lt]; norm_num
  · rw [k1, k2]; simp only [JSNum.lt]; norm_num

/-- C3.  Octet 0 dominates the key of `customIP.format`: for two addresses whose
four parts are numerals of value at most 255, a smaller first octet gives a
strictly smaller key, whatever the other octets are. -/
theorem customIP_format_octet0_dominates (a b c d a' b' c' d' : String)
    (ha : isNumeral a = true) (hb : isNumeral b = true) (hc : isNumeral c = true)
    (hd : isNumeral d = true) (ha' : isNumeral a' = true) (hb' : isNumeral b' = true)
    (hc' : isNumeral c' = true) (hd' : isNumeral d' = true)
    (va : decimalValue a ≤ 255) (vb : decimalValue b ≤ 255) (vc : decimalValue c ≤ 255)
    (vd : decimalValue d ≤ 255) (va' : decimalValue a' ≤ 255) (vb' : decimalValue b' ≤ 255)
    (vc' : decimalValue c' ≤ 255) (vd' : decimalValue d' ≤ 255)
    (h : decimalValue a < decimalValue a') :
    JSNum.lt (customIP.format (a ++ "." ++ b ++ "." ++ c ++ "." ++ d))
      (customIP.format (a' ++ "." ++ b' ++ "." ++ c' ++ "." ++ d')) = true := by
  rw [customIP_format_numerals ha hb hc hd (octets_key_lt va vb vc vd),
    customIP_format_numerals ha' hb' hc' hd' (octets_key_lt va' vb' vc' vd'),
    JSNum.lt_fin_natCast]
  omega

/-- C3 at `1.255.255.255` and `2.0.0.0`. -/
theorem customIP_format_octet0_dominates_witness :
    (isNumeral "1" = true ∧ isNumeral "255" = true ∧ isNumeral "2" = true
      ∧ isNumeral "0" = true ∧ decimalValue "1" ≤ 255 ∧ decimalValue "255" ≤ 255
      ∧ decimalValue "2" ≤ 255 ∧ decimalValue "0" ≤ 255
      ∧ decimalValue "1" < decimalValue "2")
    ∧ JSNum.lt (customIP.format ("1" ++ "." ++ "255" ++ "." ++ "255" ++ "." ++ "255"))
        (customIP.format ("2" ++ "." ++ "0" ++ "." ++ "0" ++ "." ++ "0")) = true :=
  ⟨by decide, customIP_format_octet0_dominates "1" "255" "255" "255" "2" "0" "0" "0"
    (by decide) (by decide) (by decide) (by decide) (by decide) (by decide) (by decide)
    (by decide) (by decide) (by decide) (by decide) (by decide) (by decide) (by decide)
    (by decide) (by decide) (by decide)⟩

/-- C4.  The key of `customIP.format` is strictly increasing in the last octet:
for numerals of value at most 255 and equal first three parts, a smaller last
octet gives a strictly smaller key. -/
theorem customIP_format_last_octet_increasing (a b c d e : String)
    (ha : isNumeral a = true) (hb : isNumeral b = true) (hc : isNumeral c = true)
    (hd : isNumeral d = true) (he : isNumeral e = true)
    (va : decimalValue a ≤ 255) (vb : decimalValue b ≤ 255) (vc : decimalValue c ≤ 255)
    (vd : decimalValue d ≤ 255) (ve : decimalValue e ≤ 255)
    (h : decimalValue d < decimalValue e) :
    JSNum.lt (customIP.format (a ++ "." ++ b ++ "." ++ c ++ "." ++ d))
      (customIP.format (a ++ "." ++ b ++ "." ++ c ++ "." ++ e)) = true := by
  rw [customIP_format_numerals ha hb hc hd (octets_key_lt va vb vc vd),
    customIP_format_numerals ha hb hc he (octets_key_lt va vb vc ve),
    JSNum.lt_fin_natCast]
  omega

/-- C4 at `10.0.0.1`, `10.0.0.2`, `10.0.0.10`: the three keys are strictly
increasing in that order. -/
theorem customIP_format_last_octet_increasing_witness :
    (isNumeral "10" = true ∧ isNumeral "0" = true ∧ isNumeral "1" = true
      ∧ isNumeral "2" = true ∧ decimalValue "10" ≤ 255 ∧ decimalValue "0" ≤ 255
      ∧ decimalValue "1" ≤ 255 ∧ decimalValue "2" ≤ 255
      ∧ decimalValue "1" < decimalValue "2" ∧ decimalValue "2" < decimalValue "10")
    ∧ JSNum.lt (customIP.format ("10" ++ "." ++ "0" ++ "." ++ "0" ++ "." ++ "1"))
        (customIP.format ("10" ++ "." ++ "0" ++ "." ++ "0" ++ "." ++ "2")) = true
    ∧ JSNum.lt (customIP.format ("10" ++ "." ++ "0" ++ "." ++ "0" ++ "." ++ "2"))
        (customIP.format ("10" ++ "." ++ "0" ++ "." ++ "0" ++ "." ++ "10")) = true :=
  ⟨by decide,
    customIP_format_last_octet_increasing "10" "0" "0" "1" "2"
      (by decide) (by decide) (by decide) (by decide) (by decide) (by decide) (by decide)
      (by decide) (by decide) (by decide) (by decide),
    customIP_format_last_octet_increasing "10" "0" "0" "2" "10"
      (by decide) (by decide) (by decide) (by decide) (by decide) (by decide) (by decide)
      (by decide) (by decide) (by decide) (by decide)⟩

/-! ## Signed integers -/

namespace JSNum

theorem floorLog2_neg (q : ℚ) : floorLog2 (-q) = floorLog2 q := by
  unfold floorLog2
  simp only [Rat.neg_num, Int.natAbs_neg, Rat.neg_den, abs_neg]

/-- Rounding commutes with the change of sign. -/
theorem roundDouble_neg (q : ℚ) : roundDouble (-q) = neg (roundDouble q) := by
  unfold roundDouble
  by_cases hq : q = 0
  · simp [hq, neg]
  have hnq : -q ≠ 0 := neg_ne_zero.mpr hq
  rw [if_neg hq, if_neg hnq]
  simp only [floorLog2_neg, abs_neg]
  rcases lt_or_gt_of_ne hq with hlt | hgt
  · have h1 : (0 : ℚ) < -q := by linarith
    have h2 : ¬ (0 : ℚ) < q := by linarith
    simp only [h1, h2, if_true, if_false]
    split <;> simp [neg]
  · have h1 : ¬ (0 : ℚ) < -q := by linarith
    simp only [h1, hgt, if_true, if_false]
    split <;> simp [neg]

/-- Every integer of absolute value below `2^53` is a binary64 value. -/
theorem roundDouble_intCast {z : ℤ} (h : |z| < 2 ^ 53) : roundDouble (z : ℚ) = fin (z : ℚ) := by
  rcases le_or_lt 0 z with hz | hz
  · obtain ⟨n, rfl⟩ := Int.eq_ofNat_of_zero_le hz
    have hn : n < 2 ^ 53 := by
      rw [abs_of_nonneg hz] at h
      exact_mod_cast h
    simpa using roundDouble_natCast hn
  · obtain ⟨n, hn⟩ := Int.eq_ofNat_of_zero_le (show 0 ≤ -z by omega)
    have hzn : z = -(n : ℤ) := by omega
    have hlt : n < 2 ^ 53 := by
      rw [abs_of_neg hz, hn] at h
      exact_mod_cast h
    rw [hzn]
    push_cast
    rw [roundDouble_neg, roundDouble_natCast hlt]
    rfl

theorem mul_fin_intCast {m n : ℤ} (h : |m * n| < 2 ^ 53) :
    mul (fin (m : ℚ)) (fin (n : ℚ)) = fin ((m * n : ℤ) : ℚ) := by
  show roundDouble ((m : ℚ) * (n : ℚ)) = _
  rw [← Int.cast_mul]
  exact roundDouble_intCast h

theorem add_fin_intCast {m n : ℤ} (h : |m + n| < 2 ^ 53) :
    add (fin (m : ℚ)) (fin (n : ℚ)) = fin ((m + n : ℤ) : ℚ) := by
  show roundDouble ((m : ℚ) + (n : ℚ)) = _
  rw [← Int.cast_add]
  exact roundDouble_intCast h

end JSNum

namespace JS

/-- On `-` followed by a non-empty run of digits `parseFloat` returns the Number
nearest to the negated decimal value. -/
theorem parseFloat_minus_digits {s : List Char} (hne : s ≠ [])
    (h : ∀ c ∈ s, isDecimalDigit c = true) :
    parseFloat ('-' :: s) = JSNum.roundDouble (-(digitsValue s : ℚ)) := by
  obtain ⟨c, cs, rfl⟩ := List.exists_cons_of_ne_nil hne
  have hc := h c (List.mem_cons_self _ _)
  have hcn := isDecimalDigit_iff.mp hc
  have hI : c ≠ 'I' := by
    intro e; rw [e] at hcn; revert hcn; decide
  have ht : ('-' :: c :: cs).dropWhile isWhiteSpace = '-' :: c :: cs := by
    have : isWhiteSpace '-' = false := by decide
    simp [List.dropWhile, this]
  unfold parseFloat
  simp only [ht, takeWhile_digits h, dropWhile_digits h]
  have hinf : ("Infinity".data.isPrefixOf (c :: cs)) = false := by
    show (['I', 'n', 'f', 'i', 'n', 'i', 't', 'y'].isPrefixOf (c :: cs)) = false
    simp [List.isPrefixOf, Ne.symm hI]
  simp [hinf, exponentPart]

end JS

theorem mediaWeight_cases {p w : String} (h : mediaWeight p = some w) :
    w = "10" ∨ w = "100000" := by
  unfold mediaWeight at h
  split_ifs at h <;> cases h <;> simp

theorem isNumeral_append {w a : String} (hw : isNumeral w = true) (ha : isNumeral a = true) :
    isNumeral (w ++ a) = true := by
  rw [isNumeral_iff] at hw ha ⊢
  rw [String.data_append]
  refine ⟨by simp [hw.1], ?_⟩
  intro c hc
  rcases List.mem_append.mp hc with h | h
  · exact hw.2 c h
  · exact ha.2 c h

theorem isNumeral_weight_append {p w a : String} (h : mediaWeight p = some w)
    (ha : isNumeral a = true) : isNumeral (w ++ a) = true := by
  rcases mediaWeight_cases h with rfl | rfl
  · exact isNumeral_append (by decide) ha
  · exact isNumeral_append (by decide) ha

theorem small_of_numeral {a : String} (ha : isNumeral a = true) : ∀ c ∈ a.data, c.toNat < 65 :=
  fun c hc => digit_lt_65 (((isNumeral_iff a).mp ha).2 c hc)

theorem small_cons_slash {r : List Char} (hr : ∀ c ∈ r, c.toNat < 65) :
    ∀ c ∈ '/' :: r, c.toNat < 65 := by
  intro c hc
  rcases List.mem_cons.mp hc with rfl | h
  · decide
  · exact hr c h

theorem port_format_congr {s t : String} (h : port.transform s.data = port.transform t.data) :
    port.format s = port.format t := by
  unfold port.format port.num1 port.num2 port.num3 port.splitResult
  rw [h]

/-- The key of a three-segment identifier with a media prefix, in Number
arithmetic. -/
theorem port_format_media_three {p w a b c : String} (hw : mediaWeight p = some w)
    (ha : isNumeral a = true) (hb : isNumeral b = true) (hc : isNumeral c = true) :
    port.format (p ++ a ++ "/" ++ b ++ "/" ++ c)
      = JSNum.add (JSNum.add
          (JSNum.mul (JSNum.ofNat (decimalValue (w ++ a))) (JSNum.ofNat 100000))
          (JSNum.mul (JSNum.ofNat (decimalValue b)) (JSNum.ofNat 1000)))
          (JSNum.ofNat (decimalValue c)) := by
  have hdata : (p ++ a ++ "/" ++ b ++ "/" ++ c).data
      = p.data ++ (a.data ++ '/' :: (b.data ++ '/' :: c.data)) := by
    simp [String.data_append]
  have hsmall : ∀ x ∈ a.data ++ '/' :: (b.data ++ '/' :: c.data), x.toNat < 65 :=
    small_append (small_of_numeral ha)
      (small_cons_slash (small_append (small_of_numeral hb)
        (small_cons_slash (small_of_numeral hc))))
  have ht : port.transform (p ++ a ++ "/" ++ b ++ "/" ++ c).data
      = (w ++ a).data ++ '/' :: (b.data ++ '/' :: c.data) := by
    rw [hdata, port_transform_media hw hsmall, String.data_append, List.append_assoc]
  have hwa := isNumeral_weight_append hw ha
  rw [port_format_of_three_parts _ _ _ _ ht (slash_not_mem_numeral hwa) (slash_not_mem_numeral hb)
    (slash_not_mem_numeral hc) ((isNumeral_iff c).mp hc).1,
    parseFloat_numeral hwa, parseFloat_numeral hb, parseFloat_numeral hc]

theorem small_of_digitsAndSlashes {r : String} (h : isDigitsAndSlashes r = true) :
    ∀ c ∈ r.data, c.toNat < 65 := by
  intro c hc
  unfold isDigitsAndSlashes at h
  rw [List.all_eq_true] at h
  have := h c hc
  simp only [Bool.or_eq_true, decide_eq_true_eq] at this
  rcases this with hd | rfl
  · exact digit_lt_65 hd
  · decide

theorem JSNum.lt_irrefl (x : JSNum) : JSNum.lt x x = false := by
  cases x <;> simp [JSNum.lt]

/-- C9.  The four physical media prefixes fall into one weight class: for every
string `r` of decimal digits and `/` characters, `port.format` returns the same
key on `Fa r`, `Gi r`, `Eth r` and `Te r`, so none of the four is placed before
another. -/
theorem port_format_media_collapse (r : String) (hr : isDigitsAndSlashes r = true) :
    port.format ("Fa" ++ r) = port.format ("Gi" ++ r)
    ∧ port.format ("Eth" ++ r) = port.format ("Gi" ++ r)
    ∧ port.format ("Te" ++ r) = port.format ("Gi" ++ r)
    ∧ JSNum.lt (port.format ("Fa" ++ r)) (port.format ("Gi" ++ r)) = false
    ∧ JSNum.lt (port.format ("Gi" ++ r)) (port.format ("Fa" ++ r)) = false := by
  have hs := small_of_digitsAndSlashes hr
  have tg : port.transform ("Gi" ++ r).data = "10".data ++ r.data := by
    rw [String.data_append]
    exact port_transform_media (p := "Gi") (w := "10") (by decide) hs
  have tf : port.transform ("Fa" ++ r).data = "10".data ++ r.data := by
    rw [String.data_append]
    exact port_transform_media (p := "Fa") (w := "10") (by decide) hs
  have te : port.transform ("Eth" ++ r).data = "10".data ++ r.data := by
    rw [String.data_append]
    exact port_transform_media (p := "Eth") (w := "10") (by decide) hs
  have tt : port.transform ("Te" ++ r).data = "10".data ++ r.data := by
    rw [String.data_append]
    exact port_transform_media (p := "Te") (w := "10") (by decide) hs
  have e1 : port.format ("Fa" ++ r) = port.format ("Gi" ++ r) :=
    port_format_congr (tf.trans tg.symm)
  refine ⟨e1, port_format_congr (te.trans tg.symm), port_format_congr (tt.trans tg.symm), ?_, ?_⟩
  · rw [e1]; exact JSNum.lt_irrefl _
  · rw [e1]; exact JSNum.lt_irrefl _

/-- C9 at `Fa1/0/1` and `Gi1/0/1`. -/
theorem port_format_media_collapse_witness :
    isDigitsAndSlashes "1/0/1" = true
    ∧ port.format ("Fa" ++ "1/0/1") = port.format ("Gi" ++ "1/0/1") :=
  ⟨by decide, (port_format_media_collapse "1/0/1" (by decide)).1⟩

/-! ## Identifiers without `/` -/

namespace JS

end JS

namespace JSNum

/-- The value is below the next power after the exponent found by `floorLog2`. -/
theorem lt_pow2_floorLog2_succ {q : ℚ} (hq : q ≠ 0) : |q| < pow2 (floorLog2 q + 1) := by
  unfold floorLog2
  simp only
  split
  · have h1 : q.num.natAbs < 2 ^ (Nat.log2 q.num.natAbs + 1) := Nat.lt_log2_self
    have h2 : 2 ^ Nat.log2 q.den ≤ q.den := Nat.log2_self_le q.den_nz
    have habs : |q| = (q.num.natAbs : ℚ) / (q.den : ℚ) := by
      conv_lhs => rw [← Rat.num_div_den q]
      rw [abs_div, Nat.abs_cast, Nat.cast_natAbs, Int.cast_abs]
    rw [habs]
    have hk : pow2 ((Nat.log2 q.num.natAbs : ℤ) - (Nat.log2 q.den : ℤ) + 1)
        = ((2 ^ (Nat.log2 q.num.natAbs + 1) : ℕ) : ℚ) / ((2 ^ Nat.log2 q.den : ℕ) : ℚ) := by
      unfold pow2
      have : ((Nat.log2 q.num.natAbs : ℤ) - (Nat.log2 q.den : ℤ) + 1)
          = ((Nat.log2 q.num.natAbs + 1 : ℕ) : ℤ) - (Nat.log2 q.den : ℤ) := by push_cast; ring
      rw [this, zpow_sub₀ (by norm_num), zpow_natCast, zpow_natCast]
      push_cast
      rfl
    rw [hk]
    have hden : (0 : ℚ) < q.den := by exact_mod_cast q.den_pos
    have hpd : (0 : ℚ) < ((2 ^ Nat.log2 q.den : ℕ) : ℚ) := by positivity
    rw [div_lt_div_iff₀ hden hpd]
    have h1' : (q.num.natAbs : ℚ) < ((2 ^ (Nat.log2 q.num.natAbs + 1) : ℕ) : ℚ) := by
      exact_mod_cast h1
    have h2' : ((2 ^ Nat.log2 q.den : ℕ) : ℚ) ≤ (q.den : ℚ) := by exact_mod_cast h2
    have hn0 : (0 : ℚ) ≤ (q.num.natAbs : ℚ) := by positivity
    calc (q.num.natAbs : ℚ) * ((2 ^ Nat.log2 q.den : ℕ) : ℚ)
        ≤ (q.num.natAbs : ℚ) * (q.den : ℚ) := mul_le_mul_of_nonneg_left h2' hn0
      _ < ((2 ^ (Nat.log2 q.num.natAbs + 1) : ℕ) : ℚ) * (q.den : ℚ) :=
          mul_lt_mul_of_pos_right h1' hden
  · rename_i h
    push_neg at h
    simpa using h

/-- The exponent found by `floorLog2` is the only one that brackets the value. -/
theorem floorLog2_eq_of_bounds {q : ℚ} {e : ℤ} (h1 : pow2 e ≤ |q|) (h2 : |q| < pow2 (e + 1)) :
    floorLog2 q = e := by
  have hq : q ≠ 0 := by
    intro h0
    rw [h0, abs_zero] at h1
    exact absurd h1 (not_le.mpr (pow2_pos e))
  have l1 := pow2_floorLog2_le hq
  have l2 := lt_pow2_floorLog2_succ hq
  have a1 : pow2 e < pow2 (floorLog2 q + 1) := lt_of_le_of_lt h1 l2
  have a2 : pow2 (floorLog2 q) < pow2 (e + 1) := lt_of_le_of_lt l1 h2
  have m : ∀ {x y : ℤ}, pow2 x < pow2 y → x < y := by
    intro x y hxy
    by_contra hc
    push_neg at hc
    exact absurd (pow2_le_pow2 hc) (not_le.mpr hxy)
  have := m a1
  have := m a2
  omega

/-- A value at less than one half above an integer rounds to that integer. -/
theorem roundHalfEven_of_lt_half {x : ℚ} {f : ℤ} (h1 : (f : ℚ) ≤ x) (h2 : x < f + 1 / 2) :
    roundHalfEven x = f := by
  have hf : ⌊x⌋ = f := by
    rw [Int.floor_eq_iff]
    constructor
    · exact h1
    · linarith
  unfold roundHalfEven
  simp only [hf]
  rw [if_pos (by linarith)]

/-- Rounding to the nearest integer is between the floor and the value plus one. -/
theorem roundHalfEven_bounds {x : ℚ} (hx : 0 ≤ x) :
    0 ≤ roundHalfEven x ∧ (roundHalfEven x : ℚ) ≤ x + 1 := by
  have hf0 : (0 : ℤ) ≤ ⌊x⌋ := Int.floor_nonneg.mpr hx
  have hfx : ((⌊x⌋ : ℤ) : ℚ) ≤ x := Int.floor_le x
  unfold roundHalfEven
  simp only
  split_ifs
  · exact ⟨hf0, by linarith⟩
  · exact ⟨by omega, by push_cast; linarith⟩
  · exact ⟨hf0, by linarith⟩
  · exact ⟨by omega, by push_cast; linarith⟩

/-- The rounding of a value that is not below zero is not `NaN` and not below
zero. -/
theorem isNonNeg_roundDouble {q : ℚ} (hq : 0 ≤ q) : (roundDouble q).isNonNeg = true := by
  unfold roundDouble
  by_cases h0 : q = 0
  · simp [h0, isNonNeg]
  have hpos : 0 < q := lt_of_le_of_ne hq (Ne.symm h0)
  rw [if_neg h0]
  simp only [if_pos hpos]
  split
  · rfl
  · simp only [isNonNeg, decide_eq_true_eq]
    have hu := pow2_pos (max (floorLog2 q) (-1022) - 52)
    have hx : 0 ≤ |q| / pow2 (max (floorLog2 q) (-1022) - 52) :=
      div_nonneg (abs_nonneg q) hu.le
    have := (roundHalfEven_bounds hx).1
    have hc : (0 : ℚ) ≤ (roundHalfEven (|q| / pow2 (max (floorLog2 q) (-1022) - 52)) : ℚ) := by
      exact_mod_cast this
    exact mul_nonneg hc hu.le

/-- A value in `[0, 2^1023)` rounds to a finite Number that exceeds it by at most
`2^970`. -/
theorem roundDouble_finite {q : ℚ} (hq : 0 ≤ q) (hlt : q < pow2 1023) :
    ∃ r : ℚ, roundDouble q = fin r ∧ 0 ≤ r ∧ r ≤ q + pow2 970 := by
  unfold roundDouble
  by_cases h0 : q = 0
  · refine ⟨0, by simp [h0], le_refl _, ?_⟩
    rw [h0, zero_add]
    exact (pow2_pos 970).le
  have hpos : 0 < q := lt_of_le_of_ne hq (Ne.symm h0)
  rw [if_neg h0]
  simp only [if_pos hpos]
  have habs : |q| = q := abs_of_pos hpos
  have hlow := pow2_floorLog2_le h0
  rw [habs] at hlow
  have he : floorLog2 q ≤ 1022 := by
    by_contra hc
    push_neg at hc
    have : pow2 1023 ≤ pow2 (floorLog2 q) := pow2_le_pow2 (by omega)
    linarith
  set e : ℤ := max (floorLog2 q) (-1022) with hedef
  have hele : e ≤ 1022 := max_le he (by norm_num)
  have hu := pow2_pos (e - 52)
  have hule : pow2 (e - 52) ≤ pow2 970 := pow2_le_pow2 (by omega)
  have hx : 0 ≤ |q| / pow2 (e - 52) := div_nonneg (abs_nonneg q) hu.le
  obtain ⟨b1, b2⟩ := roundHalfEven_bounds hx
  have hc : (0 : ℚ) ≤ (roundHalfEven (|q| / pow2 (e - 52)) : ℚ) := by exact_mod_cast b1
  have hr : (roundHalfEven (|q| / pow2 (e - 52)) : ℚ) * pow2 (e - 52) ≤ q + pow2 970 := by
    calc (roundHalfEven (|q| / pow2 (e - 52)) : ℚ) * pow2 (e - 52)
        ≤ (|q| / pow2 (e - 52) + 1) * pow2 (e - 52) := mul_le_mul_of_nonneg_right b2 hu.le
      _ = q + pow2 (e - 52) := by
          rw [habs]
          field_simp
      _ ≤ q + pow2 970 := by linarith
  have h1024 : pow2 1023 + pow2 970 < pow2 1024 := by
    unfold pow2; norm_num
  have hnot : ¬ pow2 1024 ≤ (roundHalfEven (|q| / pow2 (e - 52)) : ℚ) * pow2 (e - 52) := by
    push_neg
    linarith
  rw [if_neg hnot]
  exact ⟨_, rfl, mul_nonneg hc hu.le, hr⟩

theorem isNaN_mul_left (y : JSNum) : (mul nan y).isNaN = true := by
  cases y <;> rfl

theorem isNaN_add_left (y : JSNum) : (add nan y).isNaN = true := by
  cases y <;> rfl

theorem isNaN_add_right (x : JSNum) : (add x nan).isNaN = true := by
  cases x <;> rfl

theorem eq_nan_of_isNaN {x : JSNum} (h : x.isNaN = true) : x = nan := by
  cases x <;> simp [isNaN] at h ⊢

/-- The product of a Number that is not below zero with a positive finite one
is not below zero. -/
theorem isNonNeg_mul_pos {x : JSNum} {c : ℚ} (hx : x.isNonNeg = true) (hc : 0 < c) :
    (mul x (fin c)).isNonNeg = true := by
  cases x with
  | nan => simp [isNonNeg] at hx
  | negInf => simp [isNonNeg] at hx
  | fin q =>
    simp only [isNonNeg, decide_eq_true_eq] at hx
    exact isNonNeg_roundDouble (mul_nonneg hx hc.le)
  | posInf =>
    simp only [mul]
    rw [if_neg hc.ne', if_pos hc]
    rfl

/-- The sum of two Numbers that are not below zero is not below zero. -/
theorem isNonNeg_add {x y : JSNum} (hx : x.isNonNeg = true) (hy : y.isNonNeg = true) :
    (add x y).isNonNeg = true := by
  cases x with
  | nan => simp [isNonNeg] at hx
  | negInf => simp [isNonNeg] at hx
  | fin q =>
    cases y with
    | nan => simp [isNonNeg] at hy
    | negInf => simp [isNonNeg] at hy
    | fin r =>
      simp only [isNonNeg, decide_eq_true_eq] at hx hy
      exact isNonNeg_roundDouble (add_nonneg hx hy)
    | posInf => rfl
  | posInf =>
    cases y with
    | nan => simp [isNonNeg] at hy
    | negInf => simp [isNonNeg] at hy
    | fin r => rfl
    | posInf => rfl

end JSNum

/-! ## Overflow and scientific notation -/

/-- A value of at least `2^1024` rounds to `+Infinity`. -/
theorem JSNum.roundDouble_overflow {q : ℚ} (h : JSNum.pow2 1024 ≤ q) :
    JSNum.roundDouble q = JSNum.posInf := by
  have hq : 0 < q := lt_of_lt_of_le (JSNum.pow2_pos 1024) h
  have habs : |q| = q := abs_of_pos hq
  have l1 := JSNum.pow2_floorLog2_le hq.ne'
  have l2 := JSNum.lt_pow2_floorLog2_succ hq.ne'
  rw [habs] at l1 l2
  have he : 1024 ≤ JSNum.floorLog2 q := by
    by_contra hc
    push_neg at hc
    have : JSNum.pow2 (JSNum.floorLog2 q + 1) ≤ JSNum.pow2 1024 := JSNum.pow2_le_pow2 (by omega)
    linarith
  unfold JSNum.roundDouble
  rw [if_neg hq.ne', max_eq_left (by omega), habs]
  simp only
  set e := JSNum.floorLog2 q with hedef
  have hu := JSNum.pow2_pos (e - 52)
  have hsplit : JSNum.pow2 e = ((2 ^ 52 : ℤ) : ℚ) * JSNum.pow2 (e - 52) := by
    unfold JSNum.pow2
    rw [zpow_sub₀ (by norm_num)]
    push_cast
    field_simp
    norm_num
    ring
  have hx : ((2 ^ 52 : ℤ) : ℚ) ≤ q / JSNum.pow2 (e - 52) := by
    rw [le_div_iff₀ hu, ← hsplit]
    exact l1
  have hfl : (2 ^ 52 : ℤ) ≤ ⌊q / JSNum.pow2 (e - 52)⌋ := Int.le_floor.mpr hx
  have hr : (2 ^ 52 : ℤ) ≤ JSNum.roundHalfEven (q / JSNum.pow2 (e - 52)) := by
    unfold JSNum.roundHalfEven
    simp only
    split_ifs <;> omega
  have hr' : ((2 ^ 52 : ℤ) : ℚ) ≤ (JSNum.roundHalfEven (q / JSNum.pow2 (e - 52)) : ℚ) := by
    exact_mod_cast hr
  have hbig : JSNum.pow2 1024 ≤
      (JSNum.roundHalfEven (q / JSNum.pow2 (e - 52)) : ℚ) * JSNum.pow2 (e - 52) := by
    calc JSNum.pow2 1024 ≤ JSNum.pow2 e := JSNum.pow2_le_pow2 he
      _ = ((2 ^ 52 : ℤ) : ℚ) * JSNum.pow2 (e - 52) := hsplit
      _ ≤ _ := mul_le_mul_of_nonneg_right hr' hu.le
  rw [if_pos hbig, if_pos hq]


/-- On a non-empty run of digits followed by `e` and a non-empty run of digits
`parseFloat` returns the Number nearest to the value in scientific notation. -/
theorem JS.parseFloat_digits_exp {s x : List Char} (hne : s ≠ [])
    (h : ∀ c ∈ s, JS.isDecimalDigit c = true) (hx : ∀ c ∈ x, JS.isDecimalDigit c = true) :
    JS.parseFloat (s ++ 'e' :: x)
      = JSNum.roundDouble ((JS.digitsValue s : ℚ) * (10 : ℚ) ^ (JS.digitsValue x : ℤ)) := by
  obtain ⟨c, cs, rfl⟩ := List.exists_cons_of_ne_nil hne
  have hc := h c (List.mem_cons_self _ _)
  have hcn := JS.isDecimalDigit_iff.mp hc
  have hws := JS.not_isWhiteSpace_of_digit hc
  have hminus : c ≠ '-' := by
    intro e; rw [e] at hcn; revert hcn; decide
  have hplus : c ≠ '+' := by
    intro e; rw [e] at hcn; revert hcn; decide
  have hI : c ≠ 'I' := by
    intro e; rw [e] at hcn; revert hcn; decide
  have ht : (c :: cs ++ 'e' :: x).dropWhile JS.isWhiteSpace = c :: cs ++ 'e' :: x := by
    simp [List.dropWhile, hws]
  have hu : (match c :: cs ++ 'e' :: x with
      | '+' :: r => r
      | '-' :: r => r
      | _ => c :: cs ++ 'e' :: x) = c :: cs ++ 'e' :: x := by
    split
    · rename_i heq; exact absurd (List.cons.inj heq).1 hplus
    · rename_i heq; exact absurd (List.cons.inj heq).1 hminus
    · rfl
  have he : JS.isDecimalDigit 'e' = false := by decide
  have htake : (c :: cs ++ 'e' :: x).takeWhile JS.isDecimalDigit = c :: cs := by
    rw [List.takeWhile_append_of_pos h]
    simp [List.takeWhile, he]
  have hdrop : (c :: cs ++ 'e' :: x).dropWhile JS.isDecimalDigit = 'e' :: x := by
    rw [List.dropWhile_append_of_pos h]
    simp [List.dropWhile, he]
  have hexp : JS.exponentPart ('e' :: x) = (JS.digitsValue x : ℤ) := by
    unfold JS.exponentPart
    simp only [true_or, if_true]
    cases x with
    | nil => simp [JS.digitsValue]
    | cons d ds =>
      have hd := JS.isDecimalDigit_iff.mp (hx d (List.mem_cons_self _ _))
      have hdp : d ≠ '+' := by
        intro e; rw [e] at hd; revert hd; decide
      have hdm : d ≠ '-' := by
        intro e; rw [e] at hd; revert hd; decide
      split
      · rename_i heq; exact absurd (List.cons.inj heq).1 hdp
      · rename_i heq; exact absurd (List.cons.inj heq).1 hdm
      · rw [JS.takeWhile_digits hx]
  unfold JS.parseFloat
  simp only [ht, hu, htake, hdrop, hexp]
  have hinf : ("Infinity".data.isPrefixOf (c :: cs ++ 'e' :: x)) = false := by
    show (['I', 'n', 'f', 'i', 'n', 'i', 't', 'y'].isPrefixOf (c :: (cs ++ 'e' :: x))) = false
    simp [List.isPrefixOf, Ne.symm hI]
  simp [Ne.symm hI, hexp, hminus]

/-! ## `port.format` on malformed input -/

/-- C6 (counterexample).  `port.format` does not always return a finite number
that is not below zero: on `Vl10` the only segment does not parse and the key
is `NaN`, not a key to which the segment contributed `0`; on `-5` the negative
result `-498999` is returned as it is, not as `0`; on `1e400` the result is
`+Infinity`, not `0`. -/
theorem port_format_nan_and_negative :
    port.format "Vl10" = JSNum.nan
    ∧ (port.format "Vl10").isNaN = true
    ∧ port.format "-5" = JSNum.fin (-498999)
    ∧ JSNum.lt (port.format "-5") (JSNum.ofNat 0) = true
    ∧ port.format "1e400" = JSNum.posInf
    ∧ (port.format "1e400").isFinite = false := by
  have k1 : port.format "Vl10" = JSNum.nan := by
    rw [port_format_of_one_part "Vl10" (by decide)]
    have hp : JS.parseFloat (port.transform "Vl10".data) = JSNum.nan := by decide
    rw [hp, JSNum.eq_nan_of_isNaN (JSNum.isNaN_mul_left _),
      JSNum.eq_nan_of_isNaN (JSNum.isNaN_add_left _),
      JSNum.eq_nan_of_isNaN (JSNum.isNaN_add_left _)]
  have k2 : port.format "-5" = JSNum.fin (-498999) := by
    rw [port_format_of_one_part "-5" (by decide)]
    have ht : port.transform "-5".data = '-' :: "5".data := by decide
    have hp : JS.parseFloat (port.transform "-5".data) = JSNum.fin (((-5 : ℤ) : ℤ) : ℚ) := by
      rw [ht, JS.parseFloat_minus_digits (by decide) (by decide)]
      have : JS.digitsValue "5".data = 5 := by decide
      rw [this]
      have := JSNum.roundDouble_intCast (z := -5) (by norm_num)
      simpa using this
    have e5 : JSNum.ofNat 100000 = JSNum.fin ((100000 : ℤ) : ℚ) := by
      rw [JSNum.ofNat_eq (by norm_num)]; norm_num
    have e3 : JSNum.ofNat 1000 = JSNum.fin ((1000 : ℤ) : ℚ) := by
      rw [JSNum.ofNat_eq (by norm_num)]; norm_num
    have e1 : JSNum.ofNat 1 = JSNum.fin ((1 : ℤ) : ℚ) := by
      rw [JSNum.ofNat_eq (by norm_num)]; norm_num
    rw [hp, e5, e3, e1, JSNum.mul_fin_intCast (by norm_num), JSNum.mul_fin_intCast (by norm_num),
      JSNum.add_fin_intCast (by norm_num), JSNum.add_fin_intCast (by norm_num)]
    norm_num
  have k3 : port.format "1e400" = JSNum.posInf := by
    rw [port_format_of_one_part "1e400" (by decide)]
    have ht : port.transform "1e400".data = "1".data ++ 'e' :: "400".data := by decide
    have hp : JS.parseFloat (port.transform "1e400".data) = JSNum.posInf := by
      rw [ht, JS.parseFloat_digits_exp (by decide) (by decide) (by decide)]
      apply JSNum.roundDouble_overflow
      have e1 : JS.digitsValue "1".data = 1 := by decide
      have e2 : JS.digitsValue "400".data = 400 := by decide
      rw [e1, e2]
      unfold JSNum.pow2
      norm_num
    rw [hp, JSNum.ofNat_eq (n := 100000) (by norm_num),
      JSNum.ofNat_eq (n := 1000) (by norm_num), JSNum.ofNat_eq (n := 1) (by norm_num),
      JSNum.mul_fin_natCast (by norm_num)]
    simp [JSNum.mul, JSNum.add]
  refine ⟨k1, ?_, k2, ?_, k3, ?_⟩
  · rw [k1]; rfl
  · rw [k2, JSNum.ofNat_eq (by norm_num)]
    simp only [JSNum.lt]
    norm_num
  · rw [k3]; rfl

/-- C6 (amended).  The key of `port.format` is `NaN` as soon as one of the three
numbers `num1`, `num2`, `num3` it combines is `NaN`; it is a number that is not
`NaN` and not below zero whenever none of the three is `NaN` or below zero; and
it is finite when, moreover, the three are finite with
`num1*100000 + num2*1000 + num3` below `2^1000`. -/
theorem port_format_nan_or_nonneg (s : String) :
    (((port.num1 s).isNaN = true ∨ (port.num2 s).isNaN = true ∨ (port.num3 s).isNaN = true) →
        (port.format s).isNaN = true)
    ∧ (((port.num1 s).isNonNeg = true ∧ (port.num2 s).isNonNeg = true
          ∧ (port.num3 s).isNonNeg = true) →
        (port.format s).isNonNeg = true)
    ∧ (∀ x y z : ℚ, port.num1 s = JSNum.fin x → port.num2 s = JSNum.fin y →
        port.num3 s = JSNum.fin z → 0 ≤ x → 0 ≤ y → 0 ≤ z →
        x * 100000 + y * 1000 + z < JSNum.pow2 1000 →
        (port.format s).isFinite = true ∧ (port.format s).isNonNeg = true) := by
  have e5 : JSNum.ofNat 100000 = JSNum.fin 100000 := by
    rw [JSNum.ofNat_eq (by norm_num)]; norm_num
  have e3 : JSNum.ofNat 1000 = JSNum.fin 1000 := by
    rw [JSNum.ofNat_eq (by norm_num)]; norm_num
  have hnonneg : ((port.num1 s).isNonNeg = true ∧ (port.num2 s).isNonNeg = true
      ∧ (port.num3 s).isNonNeg = true) → (port.format s).isNonNeg = true := by
    rintro ⟨h1, h2, h3⟩
    unfold port.format
    simp only [e5, e3]
    exact JSNum.isNonNeg_add (JSNum.isNonNeg_add (JSNum.isNonNeg_mul_pos h1 (by norm_num))
      (JSNum.isNonNeg_mul_pos h2 (by norm_num))) h3
  refine ⟨?_, hnonneg, ?_⟩
  · intro h
    unfold port.format
    simp only []
    rcases h with h | h | h
    · rw [JSNum.eq_nan_of_isNaN h, JSNum.eq_nan_of_isNaN (JSNum.isNaN_mul_left _),
        JSNum.eq_nan_of_isNaN (JSNum.isNaN_add_left _)]
      exact JSNum.isNaN_add_left _
    · rw [JSNum.eq_nan_of_isNaN h, JSNum.eq_nan_of_isNaN (JSNum.isNaN_mul_left _),
        JSNum.eq_nan_of_isNaN (JSNum.isNaN_add_right _)]
      exact JSNum.isNaN_add_left _
    · rw [JSNum.eq_nan_of_isNaN h]
      exact JSNum.isNaN_add_right _
  · intro x y z h1 h2 h3 hx hy hz hb
    refine ⟨?_, hnonneg ⟨by rw [h1]; simpa [JSNum.isNonNeg] using hx,
      by rw [h2]; simpa [JSNum.isNonNeg] using hy, by rw [h3]; simpa [JSNum.isNonNeg] using hz⟩⟩
    have p1000 : JSNum.pow2 1000 + 3 * JSNum.pow2 970 < JSNum.pow2 1023 := by
      unfold JSNum.pow2; norm_num
    have p970 := JSNum.pow2_pos 970
    have hxy : 0 ≤ x * 100000 := by positivity
    have hyz : 0 ≤ y * 1000 := by positivity
    obtain ⟨a, ha, ha0, ha1⟩ := JSNum.roundDouble_finite (q := x * 100000) hxy (by linarith)
    obtain ⟨b, hb', hb0, hb1⟩ := JSNum.roundDouble_finite (q := y * 1000) hyz (by linarith)
    obtain ⟨c, hc, hc0, hc1⟩ := JSNum.roundDouble_finite (q := a + b) (by linarith)
      (by linarith)
    obtain ⟨d, hd, hd0, hd1⟩ := JSNum.roundDouble_finite (q := c + z) (by linarith)
      (by linarith)
    unfold port.format
    simp only [h1, h2, h3, e5, e3]
    have m1 : JSNum.mul (JSNum.fin x) (JSNum.fin 100000) = JSNum.fin a := ha
    have m2 : JSNum.mul (JSNum.fin y) (JSNum.fin 1000) = JSNum.fin b := hb'
    have m3 : JSNum.add (JSNum.fin a) (JSNum.fin b) = JSNum.fin c := hc
    have m4 : JSNum.add (JSNum.fin c) (JSNum.fin z) = JSNum.fin d := hd
    rw [m1, m2, m3, m4]
    rfl

/-! ## Decimal values and the order of keys -/

namespace JS

theorem foldl_digits (acc : ℕ) (ds : List Char) :
    ds.foldl (fun acc c => 10 * acc + (c.toNat - 48)) acc
      = acc * 10 ^ ds.length + digitsValue ds := by
  unfold digitsValue
  induction ds generalizing acc with
  | nil => simp
  | cons c cs ih =>
    simp only [List.foldl_cons, List.length_cons]
    rw [ih (10 * acc + (c.toNat - 48)), ih (10 * 0 + (c.toNat - 48))]
    ring

theorem digitsValue_cons (c : Char) (cs : List Char) :
    digitsValue (c :: cs) = (c.toNat - 48) * 10 ^ cs.length + digitsValue cs := by
  have := foldl_digits (10 * 0 + (c.toNat - 48)) cs
  unfold digitsValue at this ⊢
  simp only [List.foldl_cons]
  rw [this]
  simp

theorem digitsValue_append (w a : List Char) :
    digitsValue (w ++ a) = digitsValue w * 10 ^ a.length + digitsValue a := by
  have := foldl_digits (digitsValue w) a
  unfold digitsValue at this ⊢
  rw [List.foldl_append]
  exact this

/-- A run of `n` digits has a value below `10^n`. -/
theorem digitsValue_lt {ds : List Char} (h : ∀ c ∈ ds, isDecimalDigit c = true) :
    digitsValue ds < 10 ^ ds.length := by
  induction ds with
  | nil => simp [digitsValue]
  | cons c cs ih =>
    have hc := isDecimalDigit_iff.mp (h c (List.mem_cons_self _ _))
    have ih' := ih (fun d hd => h d (List.mem_cons_of_mem _ hd))
    rw [digitsValue_cons, List.length_cons, pow_succ]
    have h9 : c.toNat - 48 ≤ 9 := by omega
    have := Nat.mul_le_mul_right (10 ^ cs.length) h9
    omega

/-- A run of `n + 1` digits that does not start with `0` has a value of at least
`10^n`. -/
theorem le_digitsValue_cons {c : Char} {cs : List Char} (hc : isDecimalDigit c = true)
    (h0 : c ≠ '0') : 10 ^ cs.length ≤ digitsValue (c :: cs) := by
  have hcn := isDecimalDigit_iff.mp hc
  have h1 : 1 ≤ c.toNat - 48 := by
    by_contra hlt
    have h48 : c.toNat = 48 := by omega
    exact h0 (eq_of_toNat_eq (h48.trans (by decide)))
  rw [digitsValue_cons]
  have := Nat.mul_le_mul_right (10 ^ cs.length) h1
  omega

end JS

/-- For numerals without leading zeros the smaller value has at most as many
digits. -/
theorem length_le_of_value_lt {a a' : String} (ha : noLeadingZero a = true)
    (ha' : noLeadingZero a' = true) (h : decimalValue a < decimalValue a') :
    a.data.length ≤ a'.data.length := by
  unfold noLeadingZero at ha ha'
  simp only [Bool.and_eq_true, Bool.or_eq_true, decide_eq_true_eq] at ha ha'
  obtain ⟨hn, hz⟩ := ha
  obtain ⟨hn', -⟩ := ha'
  rw [isNumeral_iff] at hn hn'
  have hlt' := JS.digitsValue_lt hn'.2
  unfold decimalValue at h
  rcases hz with hz | hz
  · rw [hz]
    have : a'.data ≠ [] := hn'.1
    have : 0 < a'.data.length := List.length_pos.mpr this
    simpa using this
  · obtain ⟨c, cs, hcs⟩ := List.exists_cons_of_ne_nil hn.1
    rw [hcs] at hz h hn ⊢
    have hc0 : c ≠ '0' := by
      intro e; apply hz; simp [e]
    have hge : 10 ^ cs.length ≤ JS.digitsValue (c :: cs) :=
      JS.le_digitsValue_cons (hn.2 c (List.mem_cons_self _ _)) hc0
    by_contra hcon
    push_neg at hcon
    rw [List.length_cons] at hcon
    have : 10 ^ a'.data.length ≤ 10 ^ cs.length :=
      Nat.pow_le_pow_right (by norm_num) (by omega)
    omega

/-- The first segment after the weight `10`: the smaller numeral gives the
smaller value. -/
theorem weighted_value_lt {a a' : String} (ha : noLeadingZero a = true)
    (ha' : noLeadingZero a' = true) (h : decimalValue a < decimalValue a') :
    decimalValue ("10" ++ a) < decimalValue ("10" ++ a') := by
  have hlen := length_le_of_value_lt ha ha' h
  have hn : isNumeral a = true := by
    unfold noLeadingZero at ha
    simp only [Bool.and_eq_true] at ha
    exact ha.1
  have hlt := JS.digitsValue_lt ((isNumeral_iff a).mp hn).2
  unfold decimalValue at h ⊢
  rw [String.data_append, String.data_append, JS.digitsValue_append, JS.digitsValue_append]
  have e10 : JS.digitsValue "10".data = 10 := by decide
  rw [e10]
  rcases Nat.lt_or_ge a.data.length a'.data.length with hl | hl
  · have : 10 ^ (a.data.length + 1) ≤ 10 ^ a'.data.length :=
      Nat.pow_le_pow_right (by norm_num) hl
    rw [pow_succ] at this
    omega
  · have : a.data.length = a'.data.length := by omega
    rw [this]
    omega

/-- C7 (amended).  Segment 0 dominates the key of `port.format` as long as the
keys are below `2^53`: for `Gi a/b/c` and `Gi a'/b'/c'` with `a`, `a'` numerals
without leading zeros, `b`, `b'` numerals of value at most 99 and `c`, `c'`
numerals of value at most 999, if `a < a'` and the key
`N(10+a')*100000 + N(b')*1000 + N(c')` of the second is below `2^53`, the key of
the first is strictly smaller than the key of the second. -/
theorem port_format_segment0_dominates (a b c a' b' c' : String)
    (ha : noLeadingZero a = true) (hb : isNumeral b = true) (hc : isNumeral c = true)
    (ha' : noLeadingZero a' = true) (hb' : isNumeral b' = true) (hc' : isNumeral c' = true)
    (vb : decimalValue b ≤ 99) (vc : decimalValue c ≤ 999)
    (vb' : decimalValue b' ≤ 99) (vc' : decimalValue c' ≤ 999)
    (h : decimalValue a < decimalValue a')
    (hbound : decimalValue ("10" ++ a') * 100000 + decimalValue b' * 1000 + decimalValue c'
      < 2 ^ 53) :
    JSNum.lt (port.format ("Gi" ++ a ++ "/" ++ b ++ "/" ++ c))
      (port.format ("Gi" ++ a' ++ "/" ++ b' ++ "/" ++ c')) = true := by
  have hn : isNumeral a = true := by
    unfold noLeadingZero at ha
    simp only [Bool.and_eq_true] at ha
    exact ha.1
  have hn' : isNumeral a' = true := by
    unfold noLeadingZero at ha'
    simp only [Bool.and_eq_true] at ha'
    exact ha'.1
  have hw := weighted_value_lt ha ha' h
  have hgi : mediaWeight "Gi" = some "10" := by decide
  rw [port_format_media_three hgi hn hb hc, port_format_media_three hgi hn' hb' hc',
    JSNum.portKey_exact (by omega), JSNum.portKey_exact hbound, JSNum.lt_fin_natCast]
  omega

/-- The rounding of a positive value from its exponent `e` and the integer `f`
that is nearest to the value counted in units of `2^(e-52)`. -/
theorem JSNum.roundDouble_of_exponent {q : ℚ} {e f : ℤ} (hq : 0 < q)
    (h1 : JSNum.pow2 e ≤ q) (h2 : q < JSNum.pow2 (e + 1)) (he : -1022 ≤ e)
    (hf1 : (f : ℚ) ≤ q / JSNum.pow2 (e - 52)) (hf2 : q / JSNum.pow2 (e - 52) < f + 1 / 2)
    (hfin : (f : ℚ) * JSNum.pow2 (e - 52) < JSNum.pow2 1024) :
    JSNum.roundDouble q = JSNum.fin ((f : ℚ) * JSNum.pow2 (e - 52)) := by
  have habs : |q| = q := abs_of_pos hq
  have hlog : JSNum.floorLog2 q = e :=
    JSNum.floorLog2_eq_of_bounds (by rw [habs]; exact h1) (by rw [habs]; exact h2)
  unfold JSNum.roundDouble
  rw [if_neg hq.ne', hlog, max_eq_left he, habs]
  simp only
  rw [JSNum.roundHalfEven_of_lt_half hf1 hf2, if_neg (not_le.mpr hfin), if_pos hq]

/-- C7 (counterexample).  `Gi1000000000000000/0/1` and `Gi1000000000000001/0/1`
satisfy the conditions of the claim, the first segment of the first being the
smaller one, yet the two keys are equal: `101000000000000001` is not a binary64
value and is read as `101000000000000000`. -/
theorem port_format_segment0_not_dominant :
    noLeadingZero "1000000000000000" = true ∧ noLeadingZero "1000000000000001" = true
    ∧ noLeadingZero "0" = true ∧ noLeadingZero "1" = true
    ∧ decimalValue "0" ≤ 99 ∧ decimalValue "1" ≤ 999
    ∧ decimalValue "1000000000000000" < decimalValue "1000000000000001"
    ∧ port.format "Gi1000000000000000/0/1" = port.format "Gi1000000000000001/0/1"
    ∧ JSNum.lt (port.format "Gi1000000000000000/0/1") (port.format "Gi1000000000000001/0/1")
        = false := by
  have hgi : mediaWeight "Gi" = some "10" := by decide
  have k1 := port_format_media_three (p := "Gi") (w := "10") (a := "1000000000000000")
    (b := "0") (c := "1") hgi (by decide) (by decide) (by decide)
  have k2 := port_format_media_three (p := "Gi") (w := "10") (a := "1000000000000001")
    (b := "0") (c := "1") hgi (by decide) (by decide) (by decide)
  have s1 : ("Gi" ++ "1000000000000000" ++ "/" ++ "0" ++ "/" ++ "1" : String)
      = "Gi1000000000000000/0/1" := by decide
  have s2 : ("Gi" ++ "1000000000000001" ++ "/" ++ "0" ++ "/" ++ "1" : String)
      = "Gi1000000000000001/0/1" := by decide
  have v1 : decimalValue ("10" ++ "1000000000000000") = 101000000000000000 := by decide
  have v2 : decimalValue ("10" ++ "1000000000000001") = 101000000000000001 := by decide
  have r1 : JSNum.ofNat 101000000000000000 = JSNum.fin 101000000000000000 := by
    have := JSNum.roundDouble_of_exponent (q := 101000000000000000) (e := 56)
      (f := 6312500000000000) (by norm_num) (by unfold JSNum.pow2; norm_num)
      (by unfold JSNum.pow2; norm_num) (by norm_num) (by unfold JSNum.pow2; norm_num)
      (by unfold JSNum.pow2; norm_num) (by unfold JSNum.pow2; norm_num)
    unfold JSNum.ofNat
    rw [show ((101000000000000000 : ℕ) : ℚ) = 101000000000000000 by norm_num, this]
    unfold JSNum.pow2
    norm_num
  have r2 : JSNum.ofNat 101000000000000001 = JSNum.fin 101000000000000000 := by
    have := JSNum.roundDouble_of_exponent (q := 101000000000000001) (e := 56)
      (f := 6312500000000000) (by norm_num) (by unfold JSNum.pow2; norm_num)
      (by unfold JSNum.pow2; norm_num) (by norm_num) (by unfold JSNum.pow2; norm_num)
      (by unfold JSNum.pow2; norm_num) (by unfold JSNum.pow2; norm_num)
    unfold JSNum.ofNat
    rw [show ((101000000000000001 : ℕ) : ℚ) = 101000000000000001 by norm_num, this]
    unfold JSNum.pow2
    norm_num
  rw [s1, v1, r1] at k1
  rw [s2, v2, r2] at k2
  have heq : port.format "Gi1000000000000000/0/1" = port.format "Gi1000000000000001/0/1" :=
    k1.trans k2.symm
  refine ⟨by decide, by decide, by decide, by decide, by decide, by decide, by decide, heq, ?_⟩
  rw [heq]
  exact JSNum.lt_irrefl _

/-! ## The statements on concrete identifiers -/

/-- C7 (amended) at `Gi1/99/99` and `Gi2/0/1`. -/
theorem port_format_segment0_dominates_witness :
    (noLeadingZero "1" = true ∧ isNumeral "99" = true ∧ noLeadingZero "2" = true
      ∧ isNumeral "0" = true ∧ isNumeral "1" = true
      ∧ decimalValue "99" ≤ 99 ∧ decimalValue "99" ≤ 999
      ∧ decimalValue "0" ≤ 99 ∧ decimalValue "1" ≤ 999
      ∧ decimalValue "1" < decimalValue "2"
      ∧ decimalValue ("10" ++ "2") * 100000 + decimalValue "0" * 1000 + decimalValue "1"
          < 2 ^ 53)
    ∧ JSNum.lt (port.format ("Gi" ++ "1" ++ "/" ++ "99" ++ "/" ++ "99"))
        (port.format ("Gi" ++ "2" ++ "/" ++ "0" ++ "/" ++ "1")) = true :=
  ⟨by decide, port_format_segment0_dominates "1" "99" "99" "2" "0" "1"
    (by decide) (by decide) (by decide) (by decide) (by decide) (by decide)
    (by decide) (by decide) (by decide) (by decide) (by decide) (by decide)⟩

/-- C6 (amended) at `Vl10`, whose only segment does not parse, and at `Gi1/0/24`,
whose three segments are `101`, `0` and `24`. -/
theorem port_format_nan_or_nonneg_witness :
    (port.num1 "Vl10" = JSNum.nan ∧ port.num1 "Gi1/0/24" = JSNum.fin 101
      ∧ port.num2 "Gi1/0/24" = JSNum.fin 0 ∧ port.num3 "Gi1/0/24" = JSNum.fin 24)
    ∧ (port.format "Vl10").isNaN = true
    ∧ (port.format "Gi1/0/24").isNonNeg = true
    ∧ (port.format "Gi1/0/24").isFinite = true := by
  have n0 : port.num1 "Vl10" = JSNum.nan := by decide
  have hs : port.splitResult "Gi1/0/24" = ["101".data, "0".data, "24".data] := by decide
  have n1 : port.num1 "Gi1/0/24" = JSNum.fin 101 := by
    unfold port.num1
    rw [hs]
    show JS.parseFloat "101".data = _
    rw [parseFloat_numeral (s := "101") (by decide),
      show decimalValue "101" = 101 from by decide, JSNum.ofNat_eq (by norm_num)]
    norm_num
  have n2 : port.num2 "Gi1/0/24" = JSNum.fin 0 := by
    unfold port.num2
    rw [hs]
    show JS.parseFloat "0".data = _
    rw [parseFloat_numeral (s := "0") (by decide),
      show decimalValue "0" = 0 from by decide, JSNum.ofNat_eq (by norm_num)]
    norm_num
  have n3 : port.num3 "Gi1/0/24" = JSNum.fin 24 := by
    unfold port.num3
    rw [hs]
    show JS.parseFloat "24".data = _
    rw [parseFloat_numeral (s := "24") (by decide),
      show decimalValue "24" = 24 from by decide, JSNum.ofNat_eq (by norm_num)]
    norm_num
  refine ⟨⟨n0, n1, n2, n3⟩, ?_, ?_, ?_⟩
  · exact (port_format_nan_or_nonneg "Vl10").1 (Or.inl (by rw [n0]; rfl))
  · exact (port_format_nan_or_nonneg "Gi1/0/24").2.1
      ⟨by rw [n1]; simp [JSNum.isNonNeg], by rw [n2]; simp [JSNum.isNonNeg],
        by rw [n3]; simp [JSNum.isNonNeg]⟩
  · exact ((port_format_nan_or_nonneg "Gi1/0/24").2.2 101 0 24 n1 n2 n3 (by norm_num)
      (by norm_num) (by norm_num) (by unfold JSNum.pow2; norm_num)).1
